import Mathlib

/-
  Verification development for the sled MVCC transaction layer.

  Shallow embedding of:
    - src/crates/mvcc/src/mvcc.rs   (Chain, MemRecord, Status, visible_ts,
      install, commit, abort, bump_rts)
    - src/crates/mvcc/src/tx.rs     (Tx, the phase pipeline, maintenance)
    - src/crates/mvcc/src/lib.rs    (ts_to_bytes, bytes_to_ts, key_safety_pad)
    - src/examples/mvcc/src/db.rs   (Db::ts, add_version_to_key,
      purge_version_from_key, get_chain)

  Conventions of the embedding:
    - u64 values are Nat; wrapping machine arithmetic is written with an
      explicit mod 2^64 where the source can overflow (the timestamp
      counter's fetch_add and the window multiplication in Db::ts).
      Native-endian byte encoding is modelled as little-endian (x86-64).
    - The concurrent code is sequentialized: an atomic fetch_add or
      compare_and_swap acts on the explicit counter field, a RwLock-guarded
      vector is a plain list, and an Arc<Chain> shared with the index is
      re-fetched from the index by key (entries are never removed, so the
      lookup models the pointer dereference).
    - Rust Result-errors are the err constructor of StepRes / TxResult;
      Rust panics (unwrap, assert, expect, unimplemented) are the panic
      constructor or a none.
    - The underlying sled store is out of scope per the specification
      (section 1) and is modelled from the spec, section 6, as an
      association list with atomic get / set / del / cas.
    - visible_ts is modelled with the test-build semantics described in the
      spec: a scan that is stopped by a Pending record (or exhausts the
      chain undecided) yields a Blocked error instead of re-looping.
-/

namespace SledMvcc

/-- Timestamps and versions are u64 in the source, modelled as plain Nat
(written Nat rather than an abbreviation so that arithmetic automation sees
them); keys and values are byte vectors, lists of byte-sized naturals. -/
abbrev Key := List Nat
abbrev Value := List Nat

/-- Size of the u64 domain, for the places where machine wrapping matters. -/
def U64 : Nat := 18446744073709551616

/-- Status of a memory record, from src/crates/mvcc/src/mvcc.rs. -/
inductive Status where
  | Pending
  | Aborted
  | Committed
deriving DecidableEq, Repr

/-- Status::default() is Committed in src/crates/mvcc/src/mvcc.rs. -/
def Status.default' : Status := .Committed

/-- One slot of a version chain, from src/crates/mvcc/src/mvcc.rs.  The rts
field is an AtomicUsize in the source; sequentialized to a Nat. -/
structure MemRecord where
  wts : Nat
  rts : Nat
  data : Option Nat
  status : Status
deriving DecidableEq, Repr

/-- MemRecord::default(): wts 0, rts 0, data None, status Committed. -/
def MemRecord.default' : MemRecord := ⟨0, 0, none, Status.default'⟩

/-- Transaction error type from src/crates/mvcc/src/tx.rs.  The Db payload
is dropped (no claim inspects it); Blocked is the test-build variant. -/
inductive Error where
  | Abort
  | PredicateFailure
  | Db
  | Blocked
deriving DecidableEq, Repr

/-- Result type mirroring TxResult<T> = Result<T, Error>. -/
inductive TxResult (α : Type) where
  | ok : α → TxResult α
  | err : Error → TxResult α
deriving DecidableEq, Repr

/-- A chain is the record vector behind the RwLock in
src/crates/mvcc/src/mvcc.rs. -/
abbrev Chain := List MemRecord

/-- Chain::default(): a single default record, the committed floor with
wts 0. -/
def Chain.default' : Chain := [MemRecord.default']

/-- Scan step of Chain::visible_ts over the tail-to-head (reversed) record
list: a record whose wts equals the query returns it, the first Committed
record returns its wts, Aborted records are skipped, and a Pending record
stops the scan (Blocked in the test-build semantics); an exhausted scan
also re-loops, hence Blocked. -/
def visibleTsRec (q : Nat) : List MemRecord → TxResult Nat
  | [] => .err .Blocked
  | r :: rest =>
    if r.wts = q then .ok r.wts
    else
      match r.status with
      | .Committed => .ok r.wts
      | .Aborted => visibleTsRec q rest
      | .Pending => .err .Blocked

/-- Chain::visible_ts from src/crates/mvcc/src/mvcc.rs, lines 88-111, with
the test-build Blocked semantics. -/
def Chain.visible_ts (records : Chain) (q : Nat) : TxResult Nat :=
  visibleTsRec q records.reverse

/-- Chain::install from src/crates/mvcc/src/mvcc.rs, lines 138-154: if the
vector has a last record whose wts differs from last_ts, fail with Abort
(before touching the vector); otherwise push the record. -/
def Chain.install (records : Chain) (last_ts : Nat) (rec : MemRecord) :
    TxResult Chain :=
  match records.getLast? with
  | some last_record =>
    if last_ts ≠ last_record.wts then .err .Abort
    else .ok (records ++ [rec])
  | none => .ok (records ++ [rec])

/-- Chain::commit from src/crates/mvcc/src/mvcc.rs: take the last record
(unwrap panics on an empty chain, modelled as none), assert its wts equals
ts (panic otherwise), and set its status to Committed. -/
def Chain.commit (records : Chain) (ts : Nat) : Option Chain :=
  match records.getLast? with
  | none => none
  | some last =>
    if last.wts = ts then
      some (records.dropLast ++ [{ last with status := .Committed }])
    else none

/-- Chain::abort, same shape as Chain.commit with status Aborted. -/
def Chain.abort (records : Chain) (ts : Nat) : Option Chain :=
  match records.getLast? with
  | none => none
  | some last =>
    if last.wts = ts then
      some (records.dropLast ++ [{ last with status := .Aborted }])
    else none

/-- Scan step of Chain::bump_rts over the reversed record list: the first
record with wts < ts gets its rts raised to ts (the CAS loop sequentializes
to a monotone max) and the scan stops. -/
def bumpRtsRev (ts : Nat) : List MemRecord → List MemRecord
  | [] => []
  | r :: rest =>
    if r.wts < ts then { r with rts := max r.rts ts } :: rest
    else r :: bumpRtsRev ts rest

/-- Chain::bump_rts from src/crates/mvcc/src/mvcc.rs, lines 113-136. -/
def Chain.bump_rts (records : Chain) (ts : Nat) : Chain :=
  (bumpRtsRev ts records.reverse).reverse

/-- ts_to_bytes from src/crates/mvcc/src/lib.rs: the native-endian (here
little-endian) 8-byte encoding of a u64. -/
def ts_to_bytes (t : Nat) : List Nat :=
  [t % 256, t / 256 % 256, t / 65536 % 256, t / 16777216 % 256,
   t / 4294967296 % 256, t / 1099511627776 % 256,
   t / 281474976710656 % 256, t / 72057594037927936 % 256]

/-- bytes_to_ts from src/crates/mvcc/src/lib.rs: copy_from_slice of the
first 8 bytes panics when fewer than 8 bytes are present, modelled as
none. -/
def bytes_to_ts : List Nat → Option Nat
  | b0 :: b1 :: b2 :: b3 :: b4 :: b5 :: b6 :: b7 :: _ =>
    some (b0 + 256 * (b1 + 256 * (b2 + 256 * (b3 + 256 * (b4 + 256 *
      (b5 + 256 * (b6 + 256 * b7)))))))
  | _ => none

/-- key_safety_pad from src/crates/mvcc/src/lib.rs: prepend the byte 0x40,
the @ character, to the application key. -/
def key_safety_pad (k : Key) : Key := 64 :: k

/-- Modelled from the spec: the underlying sled store (spec section 1 calls
it an external collaborator, section 6 gives its contract) is a flat map
from byte keys to byte values, kept as an association list. -/
abbrev Tree := List (Key × Value)

/-- Atomic point read of the store (spec section 6). -/
def treeGet (t : Tree) (k : Key) : Option Value :=
  (t.find? (fun p => p.1 = k)).map (fun p => p.2)

/-- Atomic overwrite of the store (spec section 6). -/
def treeSet (t : Tree) (k : Key) (v : Value) : Tree :=
  (k, v) :: t.filter (fun p => p.1 ≠ k)

/-- Atomic idempotent removal (spec section 6). -/
def treeDel (t : Tree) (k : Key) : Tree :=
  t.filter (fun p => p.1 ≠ k)

/-- Atomic compare-and-set against Option bytes (spec section 6): none is
returned exactly on CasFailed. -/
def treeCas (t : Tree) (k : Key) (old new : Option Value) : Option Tree :=
  if treeGet t k = old then
    match new with
    | some v => some (treeSet t k v)
    | none => some (treeDel t k)
  else none

/-- Serialization of one versions list, list of (wts, version) pairs, in
bincode layout: a u64 element count followed by the pairs of u64 values,
each in the 8-byte encoding of ts_to_bytes. -/
def serializeVersions (vs : List (Nat × Nat)) : List Nat :=
  ts_to_bytes vs.length ++
    vs.flatMap (fun p => ts_to_bytes p.1 ++ ts_to_bytes p.2)

/-- Parse count pairs of u64 values; fails (corrupt data) when bytes run
out. -/
def deserializePairs : Nat → List Nat → Option (List (Nat × Nat))
  | 0, _ => some []
  | n + 1, bytes =>
    match bytes_to_ts bytes, bytes_to_ts (bytes.drop 8) with
    | some t, some v =>
      (deserializePairs n (bytes.drop 16)).map (fun r => (t, v) :: r)
    | _, _ => none

/-- Deserialization of a versions list: u64 count, then that many pairs. -/
def deserializeVersions (bytes : List Nat) : Option (List (Nat × Nat)) :=
  match bytes_to_ts bytes with
  | some n => deserializePairs n (bytes.drop 8)
  | none => none

/-- Serialization of a write set, a list of keys, in bincode layout: a u64
count, then per key a u64 length followed by the key bytes. -/
def serializeWriteSet (ws : List Key) : List Nat :=
  ts_to_bytes ws.length ++ ws.flatMap (fun k => ts_to_bytes k.length ++ k)

/-- The in-memory chain index from src/crates/mvcc/src/mvcc.rs (struct
Mvcc): a map from key to chain, sequentialized to an association list. -/
abbrev Mvcc := List (Key × Chain)

/-- Mvcc::get. -/
def mvccGet (m : Mvcc) (k : Key) : Option Chain :=
  (m.find? (fun p => p.1 = k)).map (fun p => p.2)

/-- Mvcc::insert: insert-if-absent (the source returns Err(()) when the key
is present and leaves the map unchanged). -/
def mvccInsert (m : Mvcc) (k : Key) (c : Chain) : Mvcc :=
  if (mvccGet m k).isSome then m else (k, c) :: m

/-- Update the chain stored for a key; models a mutation through the shared
Arc<Chain> held both by the index and by a transaction. -/
def mvccSet (m : Mvcc) (k : Key) (c : Chain) : Mvcc :=
  m.map (fun p => if p.1 = k then (p.1, c) else p)

/-- TS_SAFETY_BUFFER from src/examples/mvcc/src/db.rs: 2 to the 32. -/
def TS_SAFETY_BUFFER : Nat := 4294967296

/-- TS_PERSIST_KEY, the byte string tx_persist. -/
def TS_PERSIST_KEY : Key := [116, 120, 95, 112, 101, 114, 115, 105, 115, 116]

/-- The Db state from src/examples/mvcc/src/db.rs: the persistent tree, the
atomic timestamp counter, and the chain index.  The crate under
src/crates/mvcc declares the same Db (its db.rs is not present under src/;
the oracle and index operations are taken from src/examples/mvcc/src/db.rs,
which the spec describes identically in sections 4.1 and 4.3). -/
structure DbState where
  tree : Tree
  counter : Nat
  mvcc : Mvcc
deriving DecidableEq, Repr

/-- Db::ts from src/examples/mvcc/src/db.rs, lines 156-180.  The fetch_add
advances the counter by max(n, 1) and yields the pre-advance value ret.
When ret mod TS_SAFETY_BUFFER exceeds three quarters of the buffer, the
code compare-and-swaps the counter from ret + n to the next multiple of the
buffer and, on success, compare-and-swaps the stored tx_persist value from
the last checkpoint to the next one; that store CAS is unwrapped, so its
failure is a panic (none).  Machine wrapping of the u64 additions and of
the window multiplication is written with mod 2^64. -/
def Db.ts (s : DbState) (n : Nat) : Option (Nat × DbState) :=
  let ret := s.counter
  let counter1 := (ret + max n 1) % U64
  if ret % TS_SAFETY_BUFFER > TS_SAFETY_BUFFER * 3 / 4 then
    let last := ret / TS_SAFETY_BUFFER * TS_SAFETY_BUFFER
    let next := (ret / TS_SAFETY_BUFFER + 1) * TS_SAFETY_BUFFER % U64
    if counter1 = (ret + n) % U64 then
      match treeCas s.tree TS_PERSIST_KEY (some (ts_to_bytes last))
          (some (ts_to_bytes next)) with
      | some t1 => some (ret, ⟨t1, next, s.mvcc⟩)
      | none => none
    else some (ret, ⟨s.tree, counter1, s.mvcc⟩)
  else some (ret, ⟨s.tree, counter1, s.mvcc⟩)

/-- Db::add_version_to_key from src/examples/mvcc/src/db.rs, lines 130-154:
read the @-padded key, append (ts, version) to the deserialized list (or
start a fresh one), and CAS the padded key from the read value to the new
serialization.  A corrupt stored value panics in the source (expect) and a
failed CAS is an error; both are none here and are distinguished by the
theorems only through states where they cannot occur. -/
def Db.add_version_to_key (t : Tree) (k : Key) (ts : Nat) (version : Nat) :
    Option Tree :=
  let padded := key_safety_pad k
  match treeGet t padded with
  | some value =>
    match deserializeVersions value with
    | none => none
    | some versions =>
      treeCas t padded (some value)
        (some (serializeVersions (versions ++ [(ts, version)])))
  | none =>
    treeCas t padded none (some (serializeVersions [(ts, version)]))

/-- Db::purge_version_from_key from src/examples/mvcc/src/db.rs, lines
92-128: read the @-padded key; for every stored (ts, version) pair with ts
equal to wts delete the per-version value key; if anything matched, retain
the non-matching pairs and CAS the padded key from the read value to the
new serialization, or to absent when nothing remains. -/
def Db.purge_version_from_key (t : Tree) (k : Key) (wts : Nat) : Option Tree :=
  let padded := key_safety_pad k
  match treeGet t padded with
  | none => some t
  | some value =>
    match deserializeVersions value with
    | none => none
    | some versions =>
      let pruned := versions.any (fun p => p.1 = wts)
      let t1 := versions.foldl
        (fun acc p => if p.1 = wts then treeDel acc (ts_to_bytes p.2) else acc) t
      if pruned then
        let kept := versions.filter (fun p => p.1 ≠ wts)
        let newv : Option Value :=
          if kept.isEmpty then none else some (serializeVersions kept)
        treeCas t1 padded (some value) newv
      else some t1

/-- Insertion sort by wts, modelling the sort_unstable_by_key in
Db::get_chain. -/
def insertByWts (r : MemRecord) : List MemRecord → List MemRecord
  | [] => [r]
  | x :: xs => if r.wts ≤ x.wts then r :: x :: xs else x :: insertByWts r xs

/-- Sort a record list by wts. -/
def sortByWts : List MemRecord → List MemRecord
  | [] => []
  | x :: xs => insertByWts x (sortByWts xs)

/-- Db::get_chain from src/examples/mvcc/src/db.rs, lines 192-229: return
the indexed chain when present; otherwise build it from the stored
@-padded key (one Committed record per stored pair, sorted by wts; corrupt
or empty stored data panics) or as the default chain, and insert it. -/
def Db.get_chain (db : DbState) (k : Key) : Option (Chain × DbState) :=
  match mvccGet db.mvcc k with
  | some chain => some (chain, db)
  | none =>
    match treeGet db.tree (key_safety_pad k) with
    | some found =>
      match deserializeVersions found with
      | none => none
      | some versions =>
        if versions.isEmpty then none
        else
          let recs := versions.map
            (fun p => MemRecord.mk p.1 0 (some p.2) .Committed)
          let sorted := sortByWts recs
          some (sorted, { db with mvcc := mvccInsert db.mvcc k sorted })
    | none =>
      some (Chain.default',
        { db with mvcc := mvccInsert db.mvcc k Chain.default' })

/-- Result of one transaction phase: an Ok value, a Rust Err carrying the
state mutated so far (the source returns Err after its side effects), or a
panic (unwrap, assert, expect, unimplemented), which unwinds. -/
inductive StepRes (σ : Type) where
  | ok : σ → StepRes σ
  | err : Error → σ → StepRes σ
  | panic : StepRes σ
deriving DecidableEq, Repr

/-- Predicate functions, fn(&Key, &Option<Value>) -> bool from
src/crates/mvcc/src/tx.rs. -/
abbrev PredicateFn := Key → Option Value → Bool

/-- The per-transaction chain snapshots: VersionedChain keeps
initial_visible and an Arc to the chain; the Arc is re-fetched from the
index by key, so only initial_visible is stored here. -/
abbrev ChainMap := List (Key × Nat)

/-- Lookup in the transaction's chains map. -/
def chainsGet (c : ChainMap) (k : Key) : Option Nat :=
  (c.find? (fun p => p.1 = k)).map (fun p => p.2)

/-- The transaction builder state from src/crates/mvcc/src/tx.rs.  The db
reference and the epoch guard are passed and handled separately. -/
structure Tx where
  reads : List Key
  predicates : List (Key × PredicateFn)
  sets : List (Key × Option Value)
  base_ts : Nat
  chains : ChainMap

/-- Tx::new. -/
def Tx.new : Tx := ⟨[], [], [], 0, []⟩

/-- Tx::set pushes Write(k, Some(v)). -/
def Tx.set (tx : Tx) (k : Key) (v : Value) : Tx :=
  { tx with sets := tx.sets ++ [(k, some v)] }

/-- Tx::del pushes Write(k, None). -/
def Tx.del (tx : Tx) (k : Key) : Tx :=
  { tx with sets := tx.sets ++ [(k, none)] }

/-- Tx::get pushes Read(k) and nothing else
(src/crates/mvcc/src/tx.rs, lines 85-87). -/
def Tx.get (tx : Tx) (k : Key) : Tx :=
  { tx with reads := tx.reads ++ [k] }

/-- Tx::predicate pushes Read(k) and Predicate(k, p). -/
def Tx.predicate (tx : Tx) (k : Key) (p : PredicateFn) : Tx :=
  { tx with reads := tx.reads ++ [k],
            predicates := tx.predicates ++ [(k, p)] }

/-- Insert a key into the deduplicating key set of version_search.  The
source uses a HashSet with unspecified iteration order; the model fixes
first-occurrence order, predicates before writes. -/
def insertKeyset (ks : List Key) (k : Key) : List Key :=
  if k ∈ ks then ks else ks ++ [k]

/-- The union of predicate keys and write keys built by
Tx::version_search. -/
def keysetOf (predicates : List (Key × PredicateFn))
    (sets : List (Key × Option Value)) : List Key :=
  (predicates.map (fun p => p.1) ++ sets.map (fun p => p.1)).foldl
    insertKeyset []

/-- Loop body of Tx::version_search (src/crates/mvcc/src/tx.rs, lines
126-161): for each key obtain the chain (get_chain is unwrapped, so its
failure panics), compute visible_ts of base_ts (errors propagate), abort
when it exceeds base_ts, and record (key, initial_visible). -/
def versionSearchGo (base : Nat) :
    List Key → ChainMap → DbState → StepRes (ChainMap × DbState)
  | [], chains, db => .ok (chains, db)
  | k :: rest, chains, db =>
    match Db.get_chain db k with
    | none => .panic
    | some (chain, db1) =>
      match Chain.visible_ts chain base with
      | .err e => .err e (chains, db1)
      | .ok last_ts =>
        if last_ts > base then .err .Abort (chains, db1)
        else versionSearchGo base rest ((k, last_ts) :: chains) db1

/-- Loop body of Tx::install_pending (src/crates/mvcc/src/tx.rs, lines
195-215): for the i-th write synthesize the Pending record with wts
base_ts and data base_ts + i and install it against initial_visible. -/
def installPendingGo (base : Nat) (chains : ChainMap) :
    Nat → List (Key × Option Value) → DbState → StepRes DbState
  | _, [], db => .ok db
  | i, (k, _) :: rest, db =>
    match chainsGet chains k with
    | none => .panic
    | some iv =>
      match mvccGet db.mvcc k with
      | none => .panic
      | some chain =>
        match Chain.install chain iv ⟨base, 0, some (base + i), .Pending⟩ with
        | .err e => .err e db
        | .ok chain1 =>
          installPendingGo base chains (i + 1) rest
            { db with mvcc := mvccSet db.mvcc k chain1 }

/-- Loop body of Tx::update_read_ts (src/crates/mvcc/src/tx.rs, lines
217-224): bump_rts(base_ts) on every predicate key's chain. -/
def updateReadTsGo (base : Nat) (chains : ChainMap) :
    List (Key × PredicateFn) → DbState → Option DbState
  | [], db => some db
  | (k, _) :: rest, db =>
    match chainsGet chains k with
    | none => none
    | some _ =>
      match mvccGet db.mvcc k with
      | none => none
      | some chain =>
        updateReadTsGo base chains rest
          { db with mvcc := mvccSet db.mvcc k (Chain.bump_rts chain base) }

/-- Loop body of Tx::check_predicates (src/crates/mvcc/src/tx.rs, lines
163-193): recompute visible_ts, abort when it moved away from both
initial_visible and base_ts, fetch the persisted value at
ts_to_bytes(initial_visible + i) where i is the predicate's list index, and
apply the predicate. -/
def checkPredicatesGo (base : Nat) (chains : ChainMap) :
    Nat → List (Key × PredicateFn) → DbState → StepRes DbState
  | _, [], db => .ok db
  | i, (k, p) :: rest, db =>
    match chainsGet chains k with
    | none => .panic
    | some iv =>
      match mvccGet db.mvcc k with
      | none => .panic
      | some chain =>
        match Chain.visible_ts chain base with
        | .err e => .err e db
        | .ok vis =>
          if iv ≠ vis ∧ base ≠ vis then .err .Abort db
          else if p k (treeGet db.tree (ts_to_bytes (iv + i))) then
            checkPredicatesGo base chains (i + 1) rest db
          else .err .PredicateFailure db

/-- Loop body of Tx::check_version_consistency (src/crates/mvcc/src/tx.rs,
lines 226-244). -/
def checkVersionConsistencyGo (base : Nat) (chains : ChainMap) :
    List (Key × PredicateFn) → DbState → StepRes DbState
  | [], db => .ok db
  | (k, _) :: rest, db =>
    match chainsGet chains k with
    | none => .panic
    | some iv =>
      match mvccGet db.mvcc k with
      | none => .panic
      | some chain =>
        match Chain.visible_ts chain base with
        | .err e => .err e db
        | .ok last_ts =>
          if last_ts ≠ iv ∧ last_ts ≠ base then .err .Abort db
          else checkVersionConsistencyGo base chains rest db

/-- The 9-byte pending write-set key: the byte 0x21, the ! character,
followed by ts_to_bytes(base_ts). -/
def writesetKey (base : Nat) : Key := 33 :: ts_to_bytes base

/-- Per-write loop of Tx::write: store the i-th value at
ts_to_bytes(base_ts + i) and add (base_ts, version) to the @-key.  A None
value hits unimplemented! and panics; sequentially a none from
add_version_to_key is the corrupt-data panic, since its CAS cannot lose a
race. -/
def writeGo (base : Nat) : Nat → List (Key × Option Value) → Tree → StepRes Tree
  | _, [], t => .ok t
  | i, (k, v) :: rest, t =>
    match v with
    | some value =>
      let t1 := treeSet t (ts_to_bytes (base + i)) value
      match Db.add_version_to_key t1 k base (base + i) with
      | none => .panic
      | some t2 => writeGo base (i + 1) rest t2
    | none => .panic

/-- Tx::write (src/crates/mvcc/src/tx.rs, lines 246-276): persist the
write-set journal record at the !-key, write every version value and @-key
entry, then delete the !-key, the linearization point. -/
def Tx.write (base : Nat) (sets : List (Key × Option Value)) (t : Tree) :
    StepRes Tree :=
  let wsk := writesetKey base
  let t1 := treeSet t wsk (serializeWriteSet (sets.map (fun p => p.1)))
  match writeGo base 0 sets t1 with
  | .panic => .panic
  | .err e t2 => .err e t2
  | .ok t2 => .ok (treeDel t2 wsk)

/-- Inner rollback loop of Tx::maintenance: purge_version_from_key for
every write key; the call is unwrapped, so a purge error panics. -/
def purgeAllWrites (base : Nat) :
    List (Key × Option Value) → Tree → Option Tree
  | [], t => some t
  | (k, _) :: rest, t =>
    match Db.purge_version_from_key t k base with
    | none => none
    | some t1 => purgeAllWrites base rest t1

/-- Tx::maintenance (src/crates/mvcc/src/tx.rs, lines 278-303): for every
write key, look up its VersionedChain (the unwrap panics when
version_search never inserted it), commit or abort the chain at base_ts
(the assert on the tail's wts panics otherwise), on failure run the inner
purge loop over the whole write set, and delete the !-key; all of this is
inside the per-write loop.  The crates/mvcc purge takes an extra success
flag whose body is not under src/; it is modelled by the purge of
src/examples/mvcc/src/db.rs, which the spec, section 4.3, describes. -/
def maintenanceGo (base : Nat) (allSets : List (Key × Option Value))
    (chains : ChainMap) (success : Bool) :
    List (Key × Option Value) → DbState → Option DbState
  | [], db => some db
  | (k, _) :: rest, db =>
    match chainsGet chains k with
    | none => none
    | some _ =>
      match mvccGet db.mvcc k with
      | none => none
      | some chain =>
        match (if success then Chain.commit chain base
               else Chain.abort chain base) with
        | none => none
        | some chain1 =>
          let db1 := { db with mvcc := mvccSet db.mvcc k chain1 }
          match (if success then some db1.tree
                 else purgeAllWrites base allSets db1.tree) with
          | none => none
          | some t1 =>
            maintenanceGo base allSets chains success rest
              { db1 with tree := treeDel t1 (writesetKey base) }

/-- The phase pipeline of Tx::_execute after set_ts
(src/crates/mvcc/src/tx.rs, lines 105-114), threading the chains map and
the db state and stopping at the first error or panic. -/
def execPipeline (predicates : List (Key × PredicateFn))
    (sets : List (Key × Option Value)) (base : Nat) (chains0 : ChainMap)
    (db : DbState) : StepRes (ChainMap × DbState) :=
  match versionSearchGo base (keysetOf predicates sets) chains0 db with
  | .panic => .panic
  | .err e s => .err e s
  | .ok (chains, db1) =>
    match installPendingGo base chains 0 sets db1 with
    | .panic => .panic
    | .err e db2 => .err e (chains, db2)
    | .ok db2 =>
      match updateReadTsGo base chains predicates db2 with
      | none => .panic
      | some db3 =>
        match checkPredicatesGo base chains 0 predicates db3 with
        | .panic => .panic
        | .err e db4 => .err e (chains, db4)
        | .ok db4 =>
          match checkVersionConsistencyGo base chains predicates db4 with
          | .panic => .panic
          | .err e db5 => .err e (chains, db5)
          | .ok db5 =>
            match Tx.write base sets db5.tree with
            | .panic => .panic
            | .err e t => .err e (chains, { db5 with tree := t })
            | .ok t => .ok (chains, { db5 with tree := t })

/-- Tx::execute over the fields the source reads: set_ts allocates base_ts
with Db::ts(sets.len()), the pipeline runs, and maintenance always follows
with the pipeline's is_ok flag; a panic anywhere is none.  The reads list
is not a parameter: no phase of the source consults it. -/
def executeCore (predicates : List (Key × PredicateFn))
    (sets : List (Key × Option Value)) (chains0 : ChainMap) (db0 : DbState) :
    Option (TxResult Unit × DbState) :=
  match Db.ts db0 sets.length with
  | none => none
  | some (base, db1) =>
    match execPipeline predicates sets base chains0 db1 with
    | .panic => none
    | .ok (chains, db2) =>
      (maintenanceGo base sets chains true sets db2).map
        (fun db3 => (.ok (), db3))
    | .err e (chains, db2) =>
      (maintenanceGo base sets chains false sets db2).map
        (fun db3 => (.err e, db3))

/-- Tx::execute (src/crates/mvcc/src/tx.rs, lines 94-103) on a transaction
record. -/
def Tx.execute (tx : Tx) (db : DbState) : Option (TxResult Unit × DbState) :=
  executeCore tx.predicates tx.sets tx.chains db

/-! Theorems.  Helper lemmas come first, then one theorem per claim. -/

/-- Helper: a successful visibleTsRec scan splits the list into skipped
records, all Aborted with wts different from the query, followed by the
deciding record. -/
theorem visibleTsRec_ok_split (q w : Nat) (l : List MemRecord)
    (h : visibleTsRec q l = .ok w) :
    ∃ pre r post, l = pre ++ r :: post ∧
      (∀ p ∈ pre, p.status = .Aborted ∧ p.wts ≠ q) ∧
      ((r.wts = q ∧ w = q) ∨
        (r.status = .Committed ∧ r.wts ≠ q ∧ w = r.wts)) := by
  induction l with
  | nil => simp [visibleTsRec] at h
  | cons r rest ih =>
    rw [visibleTsRec] at h
    by_cases hq : r.wts = q
    · rw [if_pos hq] at h
      injection h with h
      exact ⟨[], r, rest, rfl, by simp, Or.inl ⟨hq, h ▸ hq⟩⟩
    · rw [if_neg hq] at h
      cases hs : r.status with
      | Committed =>
        rw [hs] at h
        injection h with h
        exact ⟨[], r, rest, rfl, by simp, Or.inr ⟨hs, hq, h.symm⟩⟩
      | Aborted =>
        rw [hs] at h
        obtain ⟨pre, rr, post, h1, h2, h3⟩ := ih h
        refine ⟨r :: pre, rr, post, by rw [h1]; rfl, ?_, h3⟩
        intro p hp
        rcases List.mem_cons.mp hp with rfl | hp
        · exact ⟨hs, hq⟩
        · exact h2 p hp
      | Pending => rw [hs] at h; cases h


/-- Claim C1: a successful visible_ts(q) scan runs from tail toward head
skipping only Aborted records with wts different from q, and the deciding
record either has wts equal to q (yielding q, a transaction sees its own
install) or is the first Committed record (yielding its wts);
consequently a result different from q is always the wts of a Committed
record, never taken from an Aborted record. -/
theorem claim_C1_visible_ts (records : Chain) (q w : Nat)
    (h : Chain.visible_ts records q = .ok w) :
    (∃ pre r post, records.reverse = pre ++ r :: post ∧
      (∀ p ∈ pre, p.status = .Aborted ∧ p.wts ≠ q) ∧
      ((r.wts = q ∧ w = q) ∨
        (r.status = .Committed ∧ r.wts ≠ q ∧ w = r.wts))) ∧
    (w ≠ q → ∃ r, r ∈ records ∧ r.status = .Committed ∧ r.wts = w) := by
  have hsplit := visibleTsRec_ok_split q w records.reverse h
  refine ⟨hsplit, ?_⟩
  intro hw
  obtain ⟨pre, r, post, h1, _, h3⟩ := hsplit
  rcases h3 with ⟨_, rfl⟩ | ⟨hc, _, rfl⟩
  · exact absurd rfl hw
  · refine ⟨r, ?_, hc, rfl⟩
    have : r ∈ records.reverse := by rw [h1]; simp
    exact List.mem_reverse.mp this

/-- Witness for claim C1 at the default chain and query 5. -/
theorem claim_C1_visible_ts_witness :
    Chain.visible_ts [⟨0, 0, none, .Committed⟩] 5 = .ok 0 ∧
    ((∃ pre r post,
        ([⟨0, 0, none, .Committed⟩] : Chain).reverse = pre ++ r :: post ∧
        (∀ p ∈ pre, p.status = .Aborted ∧ p.wts ≠ 5) ∧
        ((r.wts = 5 ∧ 0 = 5) ∨
          (r.status = .Committed ∧ r.wts ≠ 5 ∧ 0 = r.wts))) ∧
      ((0 : Nat) ≠ 5 →
        ∃ r, r ∈ ([⟨0, 0, none, .Committed⟩] : Chain) ∧
          r.status = .Committed ∧ r.wts = 0)) :=
  ⟨by decide, claim_C1_visible_ts [⟨0, 0, none, .Committed⟩] 5 0 (by decide)⟩

/-- Helper: a Blocked visibleTsRec scan either exhausted the list through
Aborted records with wts different from the query, or was stopped by a
Pending record with wts different from the query. -/
theorem visibleTsRec_blocked (q : Nat) (l : List MemRecord)
    (h : visibleTsRec q l = .err .Blocked) :
    (∀ p ∈ l, p.status = .Aborted ∧ p.wts ≠ q) ∨
    ∃ pre r post, l = pre ++ r :: post ∧
      (∀ p ∈ pre, p.status = .Aborted ∧ p.wts ≠ q) ∧
      r.status = .Pending ∧ r.wts ≠ q := by
  induction l with
  | nil => exact Or.inl (by simp)
  | cons r rest ih =>
    rw [visibleTsRec] at h
    by_cases hq : r.wts = q
    · rw [if_pos hq] at h; cases h
    · rw [if_neg hq] at h
      cases hs : r.status with
      | Committed => rw [hs] at h; cases h
      | Pending => exact Or.inr ⟨[], r, rest, rfl, by simp, hs, hq⟩
      | Aborted =>
        rw [hs] at h
        rcases ih h with hall | ⟨pre, rr, post, h1, h2, h3, h4⟩
        · refine Or.inl ?_
          intro p hp
          rcases List.mem_cons.mp hp with rfl | hp
          · exact ⟨hs, hq⟩
          · exact hall p hp
        · refine Or.inr ⟨r :: pre, rr, post, by rw [h1]; rfl, ?_, h3, h4⟩
          intro p hp
          rcases List.mem_cons.mp hp with rfl | hp
          · exact ⟨hs, hq⟩
          · exact h2 p hp

/-- Counterexample to claim C5: a chain whose tail is a Pending record
with wts 10, greater than the query 5 and different from it, makes
visible_ts(5) return Blocked, although the claim says only a Pending
record with wts below the query blocks.  The tail is the first record of
the tail-to-head scan, so it is the record that stops the scan. -/
theorem claim_C5_counterexample :
    Chain.visible_ts [⟨0, 0, none, .Committed⟩, ⟨10, 0, none, .Pending⟩] 5 =
      .err .Blocked ∧
    ([⟨0, 0, none, .Committed⟩, ⟨10, 0, none, .Pending⟩] :
      Chain).reverse.head? = some ⟨10, 0, none, .Pending⟩ ∧
    (5 : Nat) < 10 := by decide

/-- Claim C5 as amended: visible_ts(q) returns Blocked only when the
record stopping the tail-to-head scan is a Pending record with wts
different from q, in either direction, or when the scan exhausts the chain
through Aborted records with wts different from q. -/
theorem claim_C5_amended_blocked (records : Chain) (q : Nat)
    (h : Chain.visible_ts records q = .err .Blocked) :
    (∀ p ∈ records, p.status = .Aborted ∧ p.wts ≠ q) ∨
    ∃ pre r post, records.reverse = pre ++ r :: post ∧
      (∀ p ∈ pre, p.status = .Aborted ∧ p.wts ≠ q) ∧
      r.status = .Pending ∧ r.wts ≠ q := by
  rcases visibleTsRec_blocked q records.reverse h with hall | hsplit
  · refine Or.inl ?_
    intro p hp
    exact hall p (List.mem_reverse.mpr hp)
  · exact Or.inr hsplit

/-- Witness for the amended claim C5 at a single Pending record with wts 7
and query 5. -/
theorem claim_C5_amended_blocked_witness :
    Chain.visible_ts [⟨7, 0, none, .Pending⟩] 5 = .err .Blocked ∧
    ((∀ p ∈ ([⟨7, 0, none, .Pending⟩] : Chain),
        p.status = .Aborted ∧ p.wts ≠ 5) ∨
      ∃ pre r post,
        ([⟨7, 0, none, .Pending⟩] : Chain).reverse = pre ++ r :: post ∧
        (∀ p ∈ pre, p.status = .Aborted ∧ p.wts ≠ 5) ∧
        r.status = .Pending ∧ r.wts ≠ 5) :=
  ⟨by decide, claim_C5_amended_blocked [⟨7, 0, none, .Pending⟩] 5 (by decide)⟩

/-- Claim C4: on a chain with a non-empty record list, install aborts
exactly when the last record's wts differs from expected_last_ts, touching
nothing (the error branch of the source returns before the push), and
otherwise appends the record behind the unchanged prefix. -/
theorem claim_C4_install (records : Chain) (last : MemRecord)
    (h : records.getLast? = some last) (last_ts : Nat) (rec : MemRecord) :
    (last.wts ≠ last_ts → Chain.install records last_ts rec = .err .Abort) ∧
    (last.wts = last_ts →
      Chain.install records last_ts rec = .ok (records ++ [rec])) := by
  constructor
  · intro hne
    have hc : last_ts ≠ last.wts := fun he => hne he.symm
    simp [Chain.install, h, hc]
  · intro he
    have hc : ¬last_ts ≠ last.wts := fun hne => hne he.symm
    simp [Chain.install, h, he.symm]

/-- Witness for claim C4 on the default chain: matching expected ts
appends, mismatching expected ts aborts. -/
theorem claim_C4_install_witness :
    ([⟨0, 0, none, .Committed⟩] : Chain).getLast? =
      some ⟨0, 0, none, .Committed⟩ ∧
    Chain.install [⟨0, 0, none, .Committed⟩] 0 ⟨4, 0, some 4, .Pending⟩ =
      .ok [⟨0, 0, none, .Committed⟩, ⟨4, 0, some 4, .Pending⟩] ∧
    Chain.install [⟨0, 0, none, .Committed⟩] 3 ⟨4, 0, some 4, .Pending⟩ =
      .err .Abort :=
  ⟨by decide,
    (claim_C4_install [⟨0, 0, none, .Committed⟩] ⟨0, 0, none, .Committed⟩
      (by decide) 0 ⟨4, 0, some 4, .Pending⟩).2 (by decide),
    (claim_C4_install [⟨0, 0, none, .Committed⟩] ⟨0, 0, none, .Committed⟩
      (by decide) 3 ⟨4, 0, some 4, .Pending⟩).1 (by decide)⟩

/-- Helper: Db::ts always returns the pre-advance counter value when it
returns at all, in every branch. -/
theorem Db.ts_fst (s : DbState) (n r : Nat) (s' : DbState)
    (h : Db.ts s n = some (r, s')) : r = s.counter := by
  simp only [Db.ts] at h
  split at h
  · split at h
    · split at h
      · injection h with h
        injection h with h1 h2
        exact h1.symm
      · cases h
    · injection h with h
      injection h with h1 h2
      exact h1.symm
  · injection h with h
    injection h with h1 h2
    exact h1.symm

/-- Counterexample to claim C6: with n = 0 the counter CAS of Db::ts
expects ret + n, the stale pre-advance value, not the post-advance value
ret + 1, so although the post-advance counter is past the three-quarter
mark and tx_persist holds exactly ts_bytes(last checkpoint), no durable
bump happens: tx_persist keeps ts_bytes(0) and the counter becomes
ret + 1 instead of the next multiple of the buffer. -/
theorem claim_C6_counterexample :
    (Db.ts ⟨[(TS_PERSIST_KEY, ts_to_bytes 0)], 4000000000, []⟩ 0).map
        (fun r => (r.1, treeGet r.2.tree TS_PERSIST_KEY, r.2.counter)) =
      some (4000000000, some (ts_to_bytes 0), 4000000001) ∧
    4000000000 % TS_SAFETY_BUFFER > TS_SAFETY_BUFFER * 3 / 4 ∧
    (4000000000 + 1) % TS_SAFETY_BUFFER > TS_SAFETY_BUFFER * 3 / 4 ∧
    ts_to_bytes 0 ≠ ts_to_bytes TS_SAFETY_BUFFER := by decide

/-- Claim C6 as amended: the durable-bump condition of Db::ts tests the
pre-advance value ret against the three-quarter mark, and the counter CAS
expects ret + n, which is the post-advance value exactly when n is at
least 1; only when that CAS succeeds is the store CAS of tx_persist from
ts_bytes(last checkpoint) to ts_bytes(next checkpoint) attempted, and
below the mark no durable bump is attempted at all. -/
theorem claim_C6_amended_durable_bump (s : DbState) (n : Nat)
    (hnw : s.counter + max n 1 < U64) :
    (s.counter % TS_SAFETY_BUFFER ≤ TS_SAFETY_BUFFER * 3 / 4 →
      Db.ts s n = some (s.counter, ⟨s.tree, s.counter + max n 1, s.mvcc⟩)) ∧
    (s.counter % TS_SAFETY_BUFFER > TS_SAFETY_BUFFER * 3 / 4 →
      (n = 0 →
        Db.ts s n = some (s.counter, ⟨s.tree, s.counter + 1, s.mvcc⟩)) ∧
      (1 ≤ n →
        Db.ts s n = (treeCas s.tree TS_PERSIST_KEY
            (some (ts_to_bytes
              (s.counter / TS_SAFETY_BUFFER * TS_SAFETY_BUFFER)))
            (some (ts_to_bytes ((s.counter / TS_SAFETY_BUFFER + 1) *
              TS_SAFETY_BUFFER % U64)))).map
          (fun t1 => (s.counter,
            ⟨t1, (s.counter / TS_SAFETY_BUFFER + 1) * TS_SAFETY_BUFFER % U64,
              s.mvcc⟩)))) := by
  have hmod : (s.counter + max n 1) % U64 = s.counter + max n 1 :=
    Nat.mod_eq_of_lt hnw
  refine ⟨?_, ?_⟩
  · intro hle
    simp only [Db.ts]
    rw [if_neg (Nat.not_lt.mpr hle), hmod]
  · intro hgt
    refine ⟨?_, ?_⟩
    · intro hn0
      subst hn0
      have hc : s.counter < U64 := by omega
      have h2 : (s.counter + 0) % U64 = s.counter := by
        rw [Nat.add_zero]
        exact Nat.mod_eq_of_lt hc
      simp only [Db.ts]
      rw [if_pos hgt, if_neg (by rw [hmod, h2]; omega), hmod]
      norm_num
    · intro hn1
      simp only [Db.ts]
      rw [if_pos hgt, if_pos (by rw [Nat.max_eq_left hn1])]
      cases htc : treeCas s.tree TS_PERSIST_KEY
          (some (ts_to_bytes
            (s.counter / TS_SAFETY_BUFFER * TS_SAFETY_BUFFER)))
          (some (ts_to_bytes ((s.counter / TS_SAFETY_BUFFER + 1) *
            TS_SAFETY_BUFFER % U64))) with
      | none => rfl
      | some t1 => rfl

/-- Witness for the amended claim C6: below the mark, allocation only
advances the counter. -/
theorem claim_C6_amended_durable_bump_witness :
    ((5 : Nat) + max 1 1 < U64) ∧
    (5 % TS_SAFETY_BUFFER ≤ TS_SAFETY_BUFFER * 3 / 4) ∧
    Db.ts ⟨[], 5, []⟩ 1 = some (5, ⟨[], 5 + max 1 1, []⟩) :=
  ⟨by decide, by decide,
    (claim_C6_amended_durable_bump ⟨[], 5, []⟩ 1 (by decide)).1 (by decide)⟩

/-- Counterexample to claim C7: starting two below a window boundary with
tx_persist at ts_bytes(0), an allocation of 5 timestamps returns base
4294967294, covering versions 4294967294 through 4294967298, but its
durable bump CAS moves the counter backward to the boundary 4294967296, so
the immediately following allocation returns 4294967296, inside the
previous allocation's version range: the ranges are not disjoint. -/
theorem claim_C7_counterexample :
    (Db.ts ⟨[(TS_PERSIST_KEY, ts_to_bytes 0)], 4294967294, []⟩ 5).map
        (fun r => r.1) = some 4294967294 ∧
    ((Db.ts ⟨[(TS_PERSIST_KEY, ts_to_bytes 0)], 4294967294, []⟩ 5).bind
        (fun r => Db.ts r.2 1)).map (fun r => r.1) = some 4294967296 ∧
    4294967294 ≤ 4294967296 ∧ 4294967296 ≤ 4294967294 + 5 - 1 := by decide

/-- Claim C7 as amended: Db::ts returns the pre-advance counter value,
and when the allocation does not reach past its safety-buffer window's
end (and the counter cannot wrap), the next allocation's base is at least
max(n, 1) above the previous one, so successive results are strictly
increasing and the version ranges of successive allocations are
disjoint. -/
theorem claim_C7_amended_allocate (s : DbState) (n1 n2 : Nat)
    (hnw : s.counter + TS_SAFETY_BUFFER < U64)
    (hwin : s.counter % TS_SAFETY_BUFFER + max n1 1 ≤ TS_SAFETY_BUFFER) :
    ∀ r1 s1, Db.ts s n1 = some (r1, s1) →
      r1 = s.counter ∧
      ∀ r2 s2, Db.ts s1 n2 = some (r2, s2) → r1 + max n1 1 ≤ r2 := by
  intro r1 s1 h1
  refine ⟨Db.ts_fst s n1 r1 s1 h1, ?_⟩
  intro r2 s2 h2
  have hr1 : r1 = s.counter := Db.ts_fst s n1 r1 s1 h1
  have hr2 : r2 = s1.counter := Db.ts_fst s1 n2 r2 s2 h2
  have hgoal : s.counter + max n1 1 ≤ s1.counter := by
    simp only [Db.ts, TS_SAFETY_BUFFER, U64] at h1
    simp only [TS_SAFETY_BUFFER, U64] at hnw hwin
    split at h1
    · rename_i hcond
      split at h1
      · rename_i hcas
        split at h1
        · rename_i t1 htc
          injection h1 with h1
          injection h1 with ha hb
          rw [← hb]
          simp only []
          omega
        · cases h1
      · injection h1 with h1
        injection h1 with ha hb
        rw [← hb]
        simp only []
        omega
    · injection h1 with h1
      injection h1 with ha hb
      rw [← hb]
      simp only []
      omega
  omega

/-- Witness for the amended claim C7 at counter 10 with allocations of 2
and 1 timestamps. -/
theorem claim_C7_amended_allocate_witness :
    ((10 : Nat) + TS_SAFETY_BUFFER < U64 ∧
      10 % TS_SAFETY_BUFFER + max 2 1 ≤ TS_SAFETY_BUFFER) ∧
    Db.ts ⟨[], 10, []⟩ 2 = some (10, ⟨[], 12, []⟩) ∧
    Db.ts ⟨[], 12, []⟩ 1 = some (12, ⟨[], 13, []⟩) ∧
    (10 : Nat) = 10 ∧ 10 + max 2 1 ≤ 12 := by
  have h := claim_C7_amended_allocate ⟨[], 10, []⟩ 2 1 (by decide) (by decide)
    10 ⟨[], 12, []⟩ (by decide)
  exact ⟨⟨by decide, by decide⟩, by decide, by decide, h.1,
    h.2 12 ⟨[], 13, []⟩ (by decide)⟩

/-- Helper: reading right after setting the same key. -/
theorem treeGet_treeSet_self (t : Tree) (k : Key) (v : Value) :
    treeGet (treeSet t k v) k = some v := by
  simp [treeGet, treeSet]

/-- Helper: treeGet on a cons cell. -/
theorem treeGet_cons (k1 : Key) (v : Value) (t : Tree) (k : Key) :
    treeGet ((k1, v) :: t) k = if k1 = k then some v else treeGet t k := by
  by_cases h : k1 = k
  · simp [treeGet, List.find?_cons_of_pos, h]
  · rw [if_neg h]
    unfold treeGet
    rw [List.find?_cons_of_neg]
    simp [h]

/-- Helper: treeDel on a cons cell. -/
theorem treeDel_cons (k1 : Key) (v : Value) (t : Tree) (kd : Key) :
    treeDel ((k1, v) :: t) kd =
      if k1 = kd then treeDel t kd else (k1, v) :: treeDel t kd := by
  by_cases h : k1 = kd
  · simp [treeDel, List.filter_cons, h]
  · simp [treeDel, List.filter_cons, h]

/-- Helper: deleting one key leaves every other key's value unchanged. -/
theorem treeGet_treeDel_other (t : Tree) (kd k : Key) (h : kd ≠ k) :
    treeGet (treeDel t kd) k = treeGet t k := by
  induction t with
  | nil => rfl
  | cons p t ih =>
    obtain ⟨k1, v⟩ := p
    rw [treeDel_cons]
    by_cases hp : k1 = kd
    · rw [if_pos hp, ih, treeGet_cons, if_neg (by rw [hp]; exact h)]
    · rw [if_neg hp, treeGet_cons, treeGet_cons, ih]

/-- Helper: a deleted key reads as absent. -/
theorem treeGet_treeDel_self (t : Tree) (k : Key) :
    treeGet (treeDel t k) k = none := by
  induction t with
  | nil => rfl
  | cons p t ih =>
    obtain ⟨k1, v⟩ := p
    rw [treeDel_cons]
    by_cases hp : k1 = k
    · rw [if_pos hp]; exact ih
    · rw [if_neg hp, treeGet_cons, if_neg hp]; exact ih

/-- Helper: bytes_to_ts reads back a ts_to_bytes prefix. -/
theorem bytes_to_ts_append (t : Nat) (rest : List Nat) (ht : t < U64) :
    bytes_to_ts (ts_to_bytes t ++ rest) = some t := by
  simp only [ts_to_bytes, List.cons_append, List.nil_append, bytes_to_ts,
    Option.some.injEq, U64] at ht ⊢
  omega

/-- Helper: dropping the 8 bytes of a ts_to_bytes prefix. -/
theorem ts_to_bytes_append_drop (t : Nat) (rest : List Nat) :
    (ts_to_bytes t ++ rest).drop 8 = rest := rfl

/-- Helper: dropping 16 bytes consumes a ts_to_bytes prefix and 8 more. -/
theorem ts_to_bytes_append_drop16 (t : Nat) (rest : List Nat) :
    (ts_to_bytes t ++ rest).drop 16 = rest.drop 8 := rfl

/-- Helper: parsing back a serialized pair list followed by anything. -/
theorem deserializePairs_append (vs : List (Nat × Nat)) (rest : List Nat)
    (hwf : ∀ p ∈ vs, p.1 < U64 ∧ p.2 < U64) :
    deserializePairs vs.length
      (vs.flatMap (fun p => ts_to_bytes p.1 ++ ts_to_bytes p.2) ++ rest) =
      some vs := by
  induction vs with
  | nil => rfl
  | cons p vs ih =>
    obtain ⟨hp1, hp2⟩ := hwf p (List.mem_cons_self p vs)
    have hbytes : (p :: vs).flatMap
        (fun p => ts_to_bytes p.1 ++ ts_to_bytes p.2) ++ rest =
        ts_to_bytes p.1 ++ (ts_to_bytes p.2 ++
          (vs.flatMap (fun p => ts_to_bytes p.1 ++ ts_to_bytes p.2) ++
            rest)) := by
      simp [List.flatMap_cons, List.append_assoc]
    rw [List.length_cons, hbytes]
    rw [deserializePairs]
    rw [bytes_to_ts_append _ _ hp1, ts_to_bytes_append_drop]
    rw [bytes_to_ts_append _ _ hp2]
    rw [ts_to_bytes_append_drop16, ts_to_bytes_append_drop]
    rw [ih (fun q hq => hwf q (List.mem_cons_of_mem p hq))]
    rfl

/-- Helper: deserializeVersions inverts serializeVersions on u64-valued
lists. -/
theorem deserializeVersions_serializeVersions (vs : List (Nat × Nat))
    (hlen : vs.length < U64) (hwf : ∀ p ∈ vs, p.1 < U64 ∧ p.2 < U64) :
    deserializeVersions (serializeVersions vs) = some vs := by
  unfold serializeVersions deserializeVersions
  rw [bytes_to_ts_append _ _ hlen, ts_to_bytes_append_drop]
  have h := deserializePairs_append vs [] hwf
  rw [List.append_nil] at h
  exact h

/-- Helper: the per-version deletions of purge_version_from_key do not
touch a key that differs from every deleted version's byte key. -/
theorem treeGet_after_version_dels (versions : List (Nat × Nat)) (wts : Nat)
    (k : Key) :
    ∀ t : Tree, (∀ p ∈ versions, p.1 = wts → ts_to_bytes p.2 ≠ k) →
    treeGet (versions.foldl
      (fun acc p =>
        if p.1 = wts then treeDel acc (ts_to_bytes p.2) else acc) t) k =
      treeGet t k := by
  induction versions with
  | nil => intro t _; rfl
  | cons p vs ih =>
    intro t hne
    rw [List.foldl_cons]
    by_cases hp : p.1 = wts
    · rw [if_pos hp]
      rw [ih (treeDel t (ts_to_bytes p.2))
        (fun q hq => hne q (List.mem_cons_of_mem p hq))]
      exact treeGet_treeDel_other t (ts_to_bytes p.2) k
        (hne p (List.mem_cons_self p vs) hp)
    · rw [if_neg hp]
      exact ih t (fun q hq => hne q (List.mem_cons_of_mem p hq))

/-- Counterexample to claim C8: when the stored versions list already has
an entry with the same write timestamp, purge_version_from_key removes
both that entry and the freshly added one, so add followed by purge does
not restore the prior @-key bytes: here the key goes from a stored
one-entry list to absent. -/
theorem claim_C8_counterexample :
    ((Db.add_version_to_key
          [(key_safety_pad [1], serializeVersions [(5, 9)])] [1] 5 7).bind
        (fun t1 => Db.purge_version_from_key t1 [1] 5)).map
      (fun t2 => treeGet t2 (key_safety_pad [1])) = some none ∧
    treeGet [(key_safety_pad [1], serializeVersions [(5, 9)])]
      (key_safety_pad [1]) = some (serializeVersions [(5, 9)]) ∧
    (none : Option Value) ≠ some (serializeVersions [(5, 9)]) := by decide

/-- Claim C8 as amended: add_version_to_key(k, ts, v) followed by
purge_version_from_key(k, ts) restores the prior @-key bytes (absent
stays absent) provided the prior slot is absent or holds the
serialization of a non-empty versions list none of whose entries carries
write timestamp ts, all stored numbers fit in u64, and the deleted
per-version key ts_bytes(v) is not the @-key itself. -/
theorem claim_C8_amended_add_purge (t : Tree) (k : Key) (ts version : Nat)
    (vs : List (Nat × Nat))
    (hprior : treeGet t (key_safety_pad k) = none ∧ vs = [] ∨
      treeGet t (key_safety_pad k) = some (serializeVersions vs) ∧ vs ≠ [])
    (hts : ∀ p ∈ vs, p.1 ≠ ts)
    (hwf : ∀ p ∈ vs, p.1 < U64 ∧ p.2 < U64)
    (hlen : vs.length + 1 < U64)
    (hts64 : ts < U64) (hver : version < U64)
    (hcol : ts_to_bytes version ≠ key_safety_pad k) :
    ∃ t1 t2, Db.add_version_to_key t k ts version = some t1 ∧
      Db.purge_version_from_key t1 k ts = some t2 ∧
      treeGet t2 (key_safety_pad k) = treeGet t (key_safety_pad k) := by
  have hwf2 : ∀ p ∈ vs ++ [(ts, version)], p.1 < U64 ∧ p.2 < U64 := by
    intro p hp
    rcases List.mem_append.mp hp with h | h
    · exact hwf p h
    · rw [List.mem_singleton.mp h]
      exact ⟨hts64, hver⟩
  have hlen2 : (vs ++ [(ts, version)]).length < U64 := by
    simp only [List.length_append, List.length_singleton]
    omega
  have hdeser2 : deserializeVersions
      (serializeVersions (vs ++ [(ts, version)])) =
      some (vs ++ [(ts, version)]) :=
    deserializeVersions_serializeVersions _ hlen2 hwf2
  have hadd : Db.add_version_to_key t k ts version =
      some (treeSet t (key_safety_pad k)
        (serializeVersions (vs ++ [(ts, version)]))) := by
    rcases hprior with ⟨hget, hvs⟩ | ⟨hget, hne⟩
    · subst hvs
      simp only [Db.add_version_to_key, hget]
      unfold treeCas
      rw [if_pos hget]
      rfl
    · have hdeser1 : deserializeVersions (serializeVersions vs) = some vs :=
        deserializeVersions_serializeVersions vs (by omega) hwf
      simp only [Db.add_version_to_key, hget, hdeser1]
      unfold treeCas
      rw [if_pos hget]
  have hget1 : treeGet (treeSet t (key_safety_pad k)
      (serializeVersions (vs ++ [(ts, version)]))) (key_safety_pad k) =
      some (serializeVersions (vs ++ [(ts, version)])) :=
    treeGet_treeSet_self t (key_safety_pad k) _
  have hany : (vs ++ [(ts, version)]).any
      (fun p => p.1 = ts) = true := by simp
  have hfilter : (vs ++ [(ts, version)]).filter
      (fun p => p.1 ≠ ts) = vs := by
    rw [List.filter_append]
    have h1 : vs.filter (fun p => (p.1 ≠ ts : Prop)) = vs :=
      List.filter_eq_self.mpr (fun p hp => by simpa using hts p hp)
    have h2 : ([(ts, version)] : List (Nat × Nat)).filter
        (fun p => (p.1 ≠ ts : Prop)) = [] := by simp
    rw [h1, h2, List.append_nil]
  have hnotouch : ∀ p ∈ vs ++ [(ts, version)], p.1 = ts →
      ts_to_bytes p.2 ≠ key_safety_pad k := by
    intro p hp hpts
    rcases List.mem_append.mp hp with h | h
    · exact absurd hpts (hts p h)
    · rw [List.mem_singleton.mp h]
      exact hcol
  have hdels := treeGet_after_version_dels (vs ++ [(ts, version)]) ts
    (key_safety_pad k)
    (treeSet t (key_safety_pad k) (serializeVersions (vs ++ [(ts, version)])))
    hnotouch
  rw [hget1] at hdels
  rcases hprior with ⟨hget, hvs⟩ | ⟨hget, hne⟩
  · subst hvs
    refine ⟨_, treeDel (List.foldl
        (fun acc p => if p.1 = ts then treeDel acc (ts_to_bytes p.2) else acc)
        (treeSet t (key_safety_pad k)
          (serializeVersions ([] ++ [(ts, version)])))
        ([] ++ [(ts, version)])) (key_safety_pad k), hadd, ?_, ?_⟩
    · simp only [Db.purge_version_from_key, hget1, hdeser2]
      rw [if_pos hany, hfilter]
      unfold treeCas
      rw [hdels, if_pos rfl]
      rfl
    · rw [treeGet_treeDel_self, hget]
  · obtain ⟨v0, vs0, hcons⟩ := List.exists_cons_of_ne_nil hne
    have hkeptne : vs.isEmpty = false := by rw [hcons]; rfl
    refine ⟨_, treeSet (List.foldl
        (fun acc p => if p.1 = ts then treeDel acc (ts_to_bytes p.2) else acc)
        (treeSet t (key_safety_pad k)
          (serializeVersions (vs ++ [(ts, version)])))
        (vs ++ [(ts, version)])) (key_safety_pad k) (serializeVersions vs),
      hadd, ?_, ?_⟩
    · simp only [Db.purge_version_from_key, hget1, hdeser2]
      rw [if_pos hany, hfilter, hkeptne]
      unfold treeCas
      rw [hdels, if_pos rfl]
      rfl
    · rw [treeGet_treeSet_self, hget]

/-- Witness for the amended claim C8 on an empty store. -/
theorem claim_C8_amended_add_purge_witness :
    ∃ t1 t2, Db.add_version_to_key [] [2] 5 9 = some t1 ∧
      Db.purge_version_from_key t1 [2] 5 = some t2 ∧
      treeGet t2 (key_safety_pad [2]) = treeGet [] (key_safety_pad [2]) :=
  claim_C8_amended_add_purge [] [2] 5 9 []
    (Or.inl ⟨by decide, rfl⟩) (by decide) (by decide) (by decide)
    (by decide) (by decide) (by decide)

/-- One protocol step on a single chain, per the spec, sections 4.2 and
4.4: an install of a Pending record whose wts exceeds expected_last_ts,
where expected_last_ts was obtained from visible_ts queried with the
record's own wts, the installing transaction's base_ts (the install
re-validates the tail under the chain lock, so the visible_ts result is
taken on the pre-install state); or a successful commit or abort (a
failing assert panics and changes nothing).  A failing install also
changes nothing, so only successful operations appear as steps. -/
inductive ChainStep : Chain → Chain → Prop where
  | install : ∀ (s s' : Chain) (e : Nat) (rec : MemRecord),
      rec.status = .Pending → e < rec.wts →
      Chain.visible_ts s rec.wts = .ok e →
      Chain.install s e rec = .ok s' → ChainStep s s'
  | commit : ∀ (s s' : Chain) (ts : Nat),
      Chain.commit s ts = some s' → ChainStep s s'
  | abort : ∀ (s s' : Chain) (ts : Nat),
      Chain.abort s ts = some s' → ChainStep s s'

/-- Chain states reachable by any interleaving of protocol operations. -/
def ChainReachable (init s : Chain) : Prop :=
  Relation.ReflTransGen ChainStep init s

/-- Helper: a list whose getLast? is some last splits as dropLast plus
last. -/
theorem getLast?_split (s : Chain) (last : MemRecord)
    (h : s.getLast? = some last) : s = s.dropLast ++ [last] := by
  obtain ⟨l', rfl⟩ := List.getLast?_eq_some_iff.mp h
  rw [List.dropLast_concat]

/-- Helper: a successful install preserves the absence of Pending records
outside the tail position.  The visible_ts hypothesis rules out installing
on top of a Pending tail: such a tail would make the scan return Blocked,
or return the tail's own wts, which the wts bound forbids. -/
theorem install_keeps_no_inner_pending (s s' : Chain) (e : Nat)
    (rec : MemRecord) (hwts : e < rec.wts)
    (hvis : Chain.visible_ts s rec.wts = .ok e)
    (hok : Chain.install s e rec = .ok s')
    (hinv : ∀ r ∈ s.dropLast, r.status ≠ .Pending) :
    ∀ r ∈ s'.dropLast, r.status ≠ .Pending := by
  unfold Chain.install at hok
  cases hl : s.getLast? with
  | none =>
    rw [hl] at hok
    injection hok with hok
    subst hok
    have hs : s = [] := by
      cases s with
      | nil => rfl
      | cons a t => simp [List.getLast?_concat] at hl
    subst hs
    simp
  | some last =>
    rw [hl] at hok
    have hok2 : (if e ≠ last.wts then (TxResult.err .Abort : TxResult Chain)
        else .ok (s ++ [rec])) = .ok s' := hok
    split at hok2
    · cases hok2
    · rename_i hne2
      have hne : e = last.wts := not_not.mp hne2
      injection hok2 with hok2
      subst hok2
      rw [List.dropLast_concat]
      have hlast : last.status ≠ .Pending := by
        intro hp
        have hhead : s.reverse.head? = some last := by
          rw [List.head?_reverse]; exact hl
        obtain ⟨tail, htail⟩ : ∃ tail, s.reverse = last :: tail := by
          cases hrev : s.reverse with
          | nil => rw [hrev] at hhead; cases hhead
          | cons a t =>
            rw [hrev] at hhead
            injection hhead with hh
            exact ⟨t, by rw [hh]⟩
        rw [Chain.visible_ts, htail] at hvis
        rw [visibleTsRec] at hvis
        by_cases hq : last.wts = rec.wts
        · rw [if_pos hq] at hvis
          injection hvis with hv
          omega
        · rw [if_neg hq, hp] at hvis
          cases hvis
      intro r hr
      rw [getLast?_split s last hl] at hr
      rcases List.mem_append.mp hr with h1 | h1
      · exact hinv r h1
      · rw [List.mem_singleton.mp h1]
        exact hlast

/-- Helper: a successful commit preserves the absence of Pending records
outside the tail position: it only rewrites the tail's status. -/
theorem commit_keeps_no_inner_pending (s s' : Chain) (ts : Nat)
    (hok : Chain.commit s ts = some s')
    (hinv : ∀ r ∈ s.dropLast, r.status ≠ .Pending) :
    ∀ r ∈ s'.dropLast, r.status ≠ .Pending := by
  unfold Chain.commit at hok
  cases hl : s.getLast? with
  | none => rw [hl] at hok; cases hok
  | some last =>
    rw [hl] at hok
    have hok2 : (if last.wts = ts then
        some (s.dropLast ++ [{ last with status := .Committed }])
        else none) = some s' := hok
    split at hok2
    · injection hok2 with hok2
      subst hok2
      rw [List.dropLast_concat]
      exact hinv
    · cases hok2

/-- Helper: a successful abort preserves the absence of Pending records
outside the tail position. -/
theorem abort_keeps_no_inner_pending (s s' : Chain) (ts : Nat)
    (hok : Chain.abort s ts = some s')
    (hinv : ∀ r ∈ s.dropLast, r.status ≠ .Pending) :
    ∀ r ∈ s'.dropLast, r.status ≠ .Pending := by
  unfold Chain.abort at hok
  cases hl : s.getLast? with
  | none => rw [hl] at hok; cases hok
  | some last =>
    rw [hl] at hok
    have hok2 : (if last.wts = ts then
        some (s.dropLast ++ [{ last with status := .Aborted }])
        else none) = some s' := hok
    split at hok2
    · injection hok2 with hok2
      subst hok2
      rw [List.dropLast_concat]
      exact hinv
    · cases hok2

/-- Claim C3: from an initial chain whose records are all terminal, any
interleaved sequence of protocol installs (with expected_last_ts obtained
from visible_ts), commits and aborts keeps every Pending record at the
last position, so at most one record is Pending and, when one exists, it
is the tail. -/
theorem claim_C3_at_most_one_pending (init s : Chain)
    (hinit : ∀ r ∈ init, r.status ≠ .Pending)
    (hreach : ChainReachable init s) :
    (∀ r ∈ s.dropLast, r.status ≠ .Pending) ∧
    s.countP (fun r => decide (r.status = .Pending)) ≤ 1 := by
  have hmain : ∀ r ∈ s.dropLast, r.status ≠ .Pending := by
    induction hreach with
    | refl => exact fun r hr => hinit r (List.dropLast_subset _ hr)
    | tail hsteps hstep ih =>
      cases hstep with
      | install e rec hp hwts hvis hok =>
        exact install_keeps_no_inner_pending _ _ e rec hwts hvis hok ih
      | commit ts hok =>
        exact commit_keeps_no_inner_pending _ _ ts hok ih
      | abort ts hok =>
        exact abort_keeps_no_inner_pending _ _ ts hok ih
  refine ⟨hmain, ?_⟩
  rcases List.eq_nil_or_concat s with rfl | ⟨l', a, rfl⟩
  · simp
  · rw [List.concat_eq_append] at hmain ⊢
    rw [List.countP_append]
    have h1 : l'.countP (fun r => decide (r.status = .Pending)) = 0 := by
      rw [List.countP_eq_zero]
      intro r hr
      have h2 : r.status ≠ .Pending := by
        apply hmain r
        rw [List.dropLast_concat]
        exact hr
      simpa using h2
    rw [h1]
    by_cases hpa : a.status = .Pending <;> simp [List.countP_cons, hpa]

/-- Witness for claim C3: the default chain reaches itself in zero steps
and satisfies the invariant. -/
theorem claim_C3_at_most_one_pending_witness :
    (∀ r ∈ ([⟨0, 0, none, .Committed⟩] : Chain), r.status ≠ .Pending) ∧
    ((∀ r ∈ ([⟨0, 0, none, .Committed⟩] : Chain).dropLast,
        r.status ≠ .Pending) ∧
      ([⟨0, 0, none, .Committed⟩] : Chain).countP
        (fun r => decide (r.status = .Pending)) ≤ 1) :=
  ⟨by decide,
    claim_C3_at_most_one_pending [⟨0, 0, none, .Committed⟩]
      [⟨0, 0, none, .Committed⟩] (by decide) Relation.ReflTransGen.refl⟩

/-- Claim C9: ts_to_bytes produces exactly 8 bytes inverted by
bytes_to_ts, and on any well-formed byte sequence of length at least 8,
ts_to_bytes of bytes_to_ts gives back the first 8 bytes. -/
theorem claim_C9_ts_bytes_roundtrip :
    (∀ t : Nat, t < U64 →
      (ts_to_bytes t).length = 8 ∧ bytes_to_ts (ts_to_bytes t) = some t) ∧
    (∀ b : List Nat, 8 ≤ b.length → (∀ x ∈ b, x < 256) →
      ∃ n, bytes_to_ts b = some n ∧ ts_to_bytes n = b.take 8) := by
  constructor
  · intro t ht
    refine ⟨rfl, ?_⟩
    simp only [ts_to_bytes, bytes_to_ts, Option.some.injEq, U64] at ht ⊢
    omega
  · intro b hlen hwf
    rcases b with _ | ⟨b0, b⟩; · simp at hlen
    rcases b with _ | ⟨b1, b⟩; · simp at hlen
    rcases b with _ | ⟨b2, b⟩; · simp at hlen
    rcases b with _ | ⟨b3, b⟩; · simp at hlen
    rcases b with _ | ⟨b4, b⟩; · simp at hlen
    rcases b with _ | ⟨b5, b⟩; · simp at hlen
    rcases b with _ | ⟨b6, b⟩; · simp at hlen
    rcases b with _ | ⟨b7, rest⟩; · simp at hlen
    refine ⟨_, rfl, ?_⟩
    have h0 : b0 < 256 := hwf b0 (by simp)
    have h1 : b1 < 256 := hwf b1 (by simp)
    have h2 : b2 < 256 := hwf b2 (by simp)
    have h3 : b3 < 256 := hwf b3 (by simp)
    have h4 : b4 < 256 := hwf b4 (by simp)
    have h5 : b5 < 256 := hwf b5 (by simp)
    have h6 : b6 < 256 := hwf b6 (by simp)
    have h7 : b7 < 256 := hwf b7 (by simp)
    have htake : (b0 :: b1 :: b2 :: b3 :: b4 :: b5 :: b6 :: b7 ::
        rest).take 8 = [b0, b1, b2, b3, b4, b5, b6, b7] := rfl
    rw [htake]
    simp only [ts_to_bytes, List.cons.injEq, and_true]
    omega

/-- Witness for claim C9 at the value 3 and at a concrete 9-byte list. -/
theorem claim_C9_ts_bytes_roundtrip_witness :
    ((3 : Nat) < U64 ∧ (ts_to_bytes 3).length = 8 ∧
      bytes_to_ts (ts_to_bytes 3) = some 3) ∧
    (8 ≤ ([1, 2, 3, 4, 5, 6, 7, 8, 9] : List Nat).length ∧
      ∃ n, bytes_to_ts [1, 2, 3, 4, 5, 6, 7, 8, 9] = some n ∧
        ts_to_bytes n = ([1, 2, 3, 4, 5, 6, 7, 8, 9] : List Nat).take 8) :=
  ⟨⟨by decide, claim_C9_ts_bytes_roundtrip.1 3 (by decide)⟩,
    ⟨by decide,
      claim_C9_ts_bytes_roundtrip.2 [1, 2, 3, 4, 5, 6, 7, 8, 9]
        (by decide) (by decide)⟩⟩

/-- Claim C2 failing input: a transaction with the single write
(key [1], value [9]) against a database whose chain for key [1] already
holds a Committed record with wts 5 while the timestamp counter is 3.
version_search computes visible_ts 5 > base_ts 3 and returns Abort before
inserting key [1] into the transaction's chains map; maintenance then runs
and evaluates self.chains.get(k).unwrap() on the missing key (and
chain.abort would assert the tail's wts equals base_ts), so execute
panics (none) instead of marking the record Aborted, purging the key and
deleting the write-set record as the claim and the spec, section 7,
require. -/
theorem claim_C2_maintenance_panics_on_early_abort :
    Tx.execute (Tx.set Tx.new [1] [9])
      ⟨[], 3, [([1], [⟨5, 0, none, .Committed⟩])]⟩ = none := by decide

/-- Companion fact for claim C2: on the same transaction against a fresh
database the pipeline succeeds, maintenance commits the chain record at
base_ts, and the write-set record is gone, which matches the claim's
success half. -/
theorem execute_success_path_commits :
    (Tx.execute (Tx.set Tx.new [1] [9]) ⟨[], 3, []⟩).map
        (fun r => (r.1, mvccGet r.2.mvcc [1],
          treeGet r.2.tree (writesetKey 3))) =
      some (.ok (), some [⟨0, 0, none, .Committed⟩,
        ⟨3, 0, some 3, .Committed⟩], none) := by decide

/-- Claim C10: Tx::get only appends the key to the internal reads list,
leaving predicates, sets, base_ts and chains untouched, and execute never
consults the reads list: a transaction with any different reads list
executes to the same result and the same database state, chains and
stored bytes included. -/
theorem claim_C10_get_is_inert (tx : Tx) (k : Key) (rs : List Key)
    (db : DbState) :
    (Tx.get tx k).reads = tx.reads ++ [k] ∧
    (Tx.get tx k).predicates = tx.predicates ∧
    (Tx.get tx k).sets = tx.sets ∧
    (Tx.get tx k).base_ts = tx.base_ts ∧
    (Tx.get tx k).chains = tx.chains ∧
    Tx.execute { tx with reads := rs } db = Tx.execute tx db := by
  cases tx
  exact ⟨rfl, rfl, rfl, rfl, rfl, rfl⟩

end SledMvcc
